import Mathlib

/-!
# Verification of the sieswi CSV query engine

A shallow embedding of the core of the `sieswi` single-file CSV query
engine (Go), together with theorems settling the specification's claims
about it.  The embedding covers:

* the predicate model and WHERE evaluator (`internal/sqlparser/parser.go`);
* the sidecar block-index: data model, builder and block pruner
  (`internal/sidx/builder.go`), binary codec (`internal/sidx/format.go`);
* the execution dispatcher and the sequential, stdin and parallel row
  pipelines (`internal/engine`).

Modelling conventions:

* Go strings are Lean `String`s; Go's byte-wise string comparison agrees
  with Lean's code-point lexicographic order on UTF-8 data, and the
  ASCII-only data used in the concrete witnesses makes the two orders
  coincide byte for byte.
* `strconv.ParseFloat` is modelled by `parseNum`, an exact parser for
  plain decimal literals (optional sign, digits, optional fractional
  part) into `NumVal`, an integer mantissa with a power-of-ten scale.
  Exponent/hex/inf forms are outside the model, and float64 rounding is
  modelled exactly; every comparison appearing in a concrete theorem
  below involves small integers, where the model and IEEE-754 doubles
  agree.
* Machine integers are `Nat`/`Int`; wherever the Go code truncates
  (`uint32(...)`), the model takes the value `% 2 ^ 32` explicitly.
* File contents are modelled after the header as a list of raw lines
  (`BLine`): a line is either blank or carries its parsed CSV fields,
  and in both cases records the byte length of the raw line including
  its terminator, which is what the builder's offset arithmetic
  consumes.
* Concurrency in the parallel scanner is modelled by its observable
  row-level behaviour: the reader splits rows into batches in order,
  each batch is filtered and projected independently, and the dispatcher
  concatenates the results in batch-id order (which is exactly what the
  ordered reassembly loop in `ParallelExecute` produces) before applying
  the LIMIT cut.
-/

namespace Sieswi

/-! ## Predicate model (`internal/sqlparser/parser.go`) -/

/-- A parsed numeric value: the exact decimal `num / 10 ^ scale`.
`strconv.ParseFloat` returns a `float64`; the model keeps the decimal
exactly, so its comparisons agree with the doubles wherever rounding
preserves order (in particular on all the data appearing in the
concrete theorems below). -/
structure NumVal where
  num : Int
  scale : Nat
deriving DecidableEq, Repr

/-- Value-level `<`, by cross-multiplication. -/
def NumVal.lt (a b : NumVal) : Bool :=
  a.num * (10 : Int) ^ b.scale < b.num * (10 : Int) ^ a.scale

/-- Value-level `≤`. -/
def NumVal.le (a b : NumVal) : Bool :=
  a.num * (10 : Int) ^ b.scale ≤ b.num * (10 : Int) ^ a.scale

/-- Value-level equality. -/
def NumVal.eqv (a b : NumVal) : Bool :=
  a.num * (10 : Int) ^ b.scale = b.num * (10 : Int) ^ a.scale

/-- Digit-string value. -/
def natOfDigits (ds : List Char) : Nat :=
  ds.foldl (fun a c => 10 * a + (c.toNat - 48)) 0

/-- Decimal parse of a character list: `[+|-] digits [. digits]`, at
least one digit overall. -/
def parseNumChars (cs : List Char) : Option NumVal :=
  let (sign, body) : Int × List Char :=
    match cs with
    | '+' :: t => (1, t)
    | '-' :: t => (-1, t)
    | t => (1, t)
  let intPart := body.takeWhile Char.isDigit
  let rest := body.dropWhile Char.isDigit
  match rest with
  | [] =>
    if intPart.isEmpty then none
    else some ⟨sign * (natOfDigits intPart : Int), 0⟩
  | '.' :: frac =>
    if frac.all Char.isDigit && !(intPart.isEmpty && frac.isEmpty) then
      some ⟨sign * ((natOfDigits intPart : Int) * 10 ^ frac.length +
        (natOfDigits frac : Int)), frac.length⟩
    else none
  | _ => none

/-- `strconv.ParseFloat(s, 64)` as used throughout the engine, returning
`none` where Go returns a parse error.  Exponent, hexadecimal and
inf/NaN forms are outside the model. -/
def parseNum (s : String) : Option NumVal :=
  parseNumChars s.data

/-- Byte-wise lexicographic `<` on strings (Go's built-in `<` on
strings), at the level of code points — identical to the byte order on
UTF-8 data. -/
def charsLt : List Char → List Char → Bool
  | _, [] => false
  | [], _ :: _ => true
  | a :: as, b :: bs =>
    if a.toNat < b.toNat then true
    else if b.toNat < a.toNat then false
    else charsLt as bs

/-- Go `a < b` on strings. -/
def strLt (a b : String) : Bool :=
  charsLt a.data b.data

/-- Go `a <= b` on strings. -/
def strLe (a b : String) : Bool :=
  !strLt b a

/-- `strings.Compare` / Go's built-in string ordering as a three-way
comparison, `-1`, `0` or `1`. -/
def cmpStr (a b : String) : Int :=
  if strLt a b then -1 else if strLt b a then 1 else 0

/-- `strings.ToLower`, modelled on ASCII data (per code point). -/
def lowerStr (s : String) : String :=
  ⟨s.data.map Char.toLower⟩

/-- ASCII whitespace, as trimmed by `strings.TrimSpace`. -/
def isWS (c : Char) : Bool :=
  c = ' ' ∨ c = '\t' ∨ c = '\n' ∨ c = '\r'

/-- Trim ASCII whitespace from both ends of a character list
(`strings.TrimSpace` / `bytes.TrimSpace`). -/
def trimChars (cs : List Char) : List Char :=
  ((cs.dropWhile isWS).reverse.dropWhile isWS).reverse

/-- `strings.TrimSpace`, modelled on ASCII whitespace. -/
def trimStr (s : String) : String :=
  ⟨trimChars s.data⟩

/-- `sqlparser.Comparison`: a single column comparison.  `numericValue`
and `isNumeric` are set by the parser iff `value` parses as a double. -/
structure Comparison where
  column : String
  op : String
  value : String
  numericValue : NumVal
  isNumeric : Bool
deriving DecidableEq, Repr

/-- The tail of `sqlparser.parseComparison`: after extracting column,
operator and (quote-trimmed) value text, the numeric companion fields
are filled in iff the value parses. -/
def mkComparison (column op value : String) : Comparison :=
  match parseNum value with
  | some n => { column := column, op := op, value := value, numericValue := n, isNumeric := true }
  | none => { column := column, op := op, value := value, numericValue := ⟨0, 0⟩, isNumeric := false }

/-- `sqlparser.Expression`: the predicate tree.  The Go interface with
its three implementations becomes a sum type. -/
inductive Expression where
  | comparison (c : Comparison)
  | binary (left : Expression) (op : String) (right : Expression)
  | unary (op : String) (expr : Expression)
deriving DecidableEq, Repr

/-- `Comparison.Compare`: evaluate the comparison against a row value.
When the comparison is numeric, an unparseable row value yields `false`
(for every operator — the Go method returns `false` before inspecting
the operator); otherwise the comparison is `strings.Compare` on the raw
text. -/
def Comparison.compare (c : Comparison) (candidate : String) : Bool :=
  if c.isNumeric then
    match parseNum candidate with
    | none => false
    | some x =>
      if c.op = "=" then x.eqv c.numericValue
      else if c.op = "!=" then !x.eqv c.numericValue
      else if c.op = ">" then c.numericValue.lt x
      else if c.op = ">=" then c.numericValue.le x
      else if c.op = "<" then x.lt c.numericValue
      else if c.op = "<=" then x.le c.numericValue
      else false
  else
    let cmp := cmpStr candidate c.value
    if c.op = "=" then cmp = 0
    else if c.op = "!=" then cmp ≠ 0
    else if c.op = ">" then cmp > 0
    else if c.op = ">=" then cmp ≥ 0
    else if c.op = "<" then cmp < 0
    else if c.op = "<=" then cmp ≤ 0
    else false

/-- Row maps (`map[string]string`) are association lists with the most
recent insertion first, so `List.lookup` reproduces Go's
last-write-wins map semantics. -/
abbrev RowMap := List (String × String)

/-- `sqlparser.EvaluateNormalized`: short-circuit evaluation over a row
map keyed by normalized column names; a column absent from the map makes
the comparison `false`. -/
def evaluateNormalized : Expression → RowMap → Bool
  | .binary l op r, row =>
    if op = "AND" then evaluateNormalized l row && evaluateNormalized r row
    else if op = "OR" then evaluateNormalized l row || evaluateNormalized r row
    else false
  | .unary op e, row =>
    if op = "NOT" then !evaluateNormalized e row else false
  | .comparison c, row =>
    match row.lookup (lowerStr (trimStr c.column)) with
    | none => false
    | some v => c.compare v

/-- `sqlparser.Evaluate`: like `evaluateNormalized` but the comparison's
column name is looked up verbatim (used by the stdin path). -/
def evaluate : Expression → RowMap → Bool
  | .binary l op r, row =>
    if op = "AND" then evaluate l row && evaluate r row
    else if op = "OR" then evaluate l row || evaluate r row
    else false
  | .unary op e, row =>
    if op = "NOT" then !evaluate e row else false
  | .comparison c, row =>
    match row.lookup c.column with
    | none => false
    | some v => c.compare v

/-! ## Block-index data model (`internal/sidx/format.go`) -/

/-- `sidx.ColumnType`: `0 = string`, `1 = numeric`. -/
inductive ColumnType where
  | string
  | numeric
deriving DecidableEq, Repr

/-- The on-wire byte of a column type. -/
def ColumnType.toByte : ColumnType → Nat
  | .string => 0
  | .numeric => 1

/-- Decode a column-type byte the way the reader does: `ColumnType(b)`
keeps the raw byte, so the model keeps `numeric` only for `1`. -/
def ColumnType.ofByte (b : Nat) : ColumnType :=
  if b = 1 then .numeric else .string

/-- `sidx.ColumnInfo`: one entry of the column dictionary. -/
structure ColumnInfo where
  name : String
  type : ColumnType
deriving DecidableEq, Repr

/-- `sidx.ColumnStats`: per-block, per-column statistics. -/
structure ColumnStats where
  min : String
  max : String
  emptyCount : Nat
deriving DecidableEq, Repr

/-- `sidx.BlockMeta`: one block's row range, byte range and stats. -/
structure BlockMeta where
  startRow : Nat
  endRow : Nat
  startOffset : Nat
  endOffset : Nat
  columns : List ColumnStats
deriving DecidableEq, Repr

/-- `sidx.Header`: the index header.  `magic` is the four raw bytes of
the magic field (the Go zero value is four zero bytes). -/
structure IndexHeader where
  magic : List Nat
  version : Nat
  blockSize : Nat
  numBlocks : Nat
  fileSize : Int
  fileMtime : Int
  columns : List ColumnInfo
deriving DecidableEq, Repr

/-- `sidx.Index`. -/
structure Index where
  header : IndexHeader
  blocks : List BlockMeta
deriving DecidableEq, Repr

/-! ## Block pruner (`internal/sidx/builder.go`, `CanPruneBlock`) -/

/-- The type-aware three-way comparison closure inside `CanPruneBlock`:
numeric when the column is declared numeric and both operands parse as
doubles, lexicographic otherwise. -/
def pruneCompare (colType : ColumnType) (a b : String) : Int :=
  match colType, parseNum a, parseNum b with
  | .numeric, some x, some y => if x.lt y then -1 else if y.lt x then 1 else 0
  | _, _, _ => cmpStr a b

/-- `sidx.CanPruneBlock`: decide whether a block can be skipped for a
single comparison `colName op value`, using the dictionary for the
column's declared type and the block's min/max/empty-count stats. -/
def canPruneBlock (index : Index) (block : BlockMeta)
    (colName op value : String) : Bool :=
  let colNameL := lowerStr colName
  match index.header.columns.findIdx? (fun c => lowerStr c.name = colNameL) with
  | none => false
  | some colIdx =>
    let colType := ((index.header.columns.get? colIdx).map ColumnInfo.type).getD .string
    if colIdx < block.columns.length then
      let stats := (block.columns.get? colIdx).getD ⟨"", "", 0⟩
      if stats.min = "" && stats.max = "" then
        -- all-empty detection: EmptyCount == uint32(block row span)
        let blockSize := block.endRow - block.startRow
        if blockSize > 0 && stats.emptyCount > 0 &&
            stats.emptyCount = blockSize % 2 ^ 32 then
          op = "=" && value ≠ ""
        else false
      else
        if op = "=" then
          pruneCompare colType value stats.min < 0 ||
            pruneCompare colType value stats.max > 0
        else if op = "!=" then
          pruneCompare colType stats.min stats.max = 0 &&
            pruneCompare colType stats.min value = 0
        else if op = ">" then pruneCompare colType value stats.max ≥ 0
        else if op = ">=" then pruneCompare colType value stats.max > 0
        else if op = "<" then pruneCompare colType value stats.min ≤ 0
        else if op = "<=" then pruneCompare colType value stats.min < 0
        else false
    else false

/-- `engine.canPruneBlockExpr`: lift block pruning over the predicate
tree — `AND` prunes when either side does, `OR` when both do, `NOT`
never prunes. -/
def canPruneBlockExpr (index : Index) (block : BlockMeta) :
    Expression → Bool
  | .binary l op r =>
    if op = "AND" then
      canPruneBlockExpr index block l || canPruneBlockExpr index block r
    else if op = "OR" then
      canPruneBlockExpr index block l && canPruneBlockExpr index block r
    else false
  | .unary _ _ => false
  | .comparison c => canPruneBlock index block c.column c.op c.value

/-! ## Index builder (`internal/sidx/builder.go`, `Builder.BuildFromFile`)

The builder streams the file line by line after the header.  A line is
modelled as either blank (only a `\r?\n` terminator after trimming) or
a data line carrying its parsed CSV fields; both record the byte length
of the raw line including its terminator, which is what drives the
builder's offset arithmetic. -/

/-- One raw line of the data section. -/
inductive BLine where
  | blank (rawLen : Nat)
  | data (fields : List String) (rawLen : Nat)
deriving DecidableEq, Repr

/-- Per-column accumulator: the running min/max/empty-count of the
current block plus the type-inference counters (which, as in Go, are
kept across block flushes but only incremented while inference is
active). -/
structure ColAcc where
  min : String
  max : String
  empty : Nat
  numCount : Nat
  nonEmpty : Nat
deriving DecidableEq, Repr

/-- The builder's state: the fields of `sidx.Builder` together with the
loop-local `offset` and `rowInBlock` of `BuildFromFile`. -/
structure BuildState where
  blockSize : Nat
  currentRow : Nat
  blocks : List BlockMeta
  blockStartRow : Nat
  blockStartOffset : Nat
  lastRowEndOffset : Nat
  cols : List ColAcc
  tiActive : Bool
  types : Option (List ColumnType)
  offset : Nat
  rowInBlock : Nat
deriving DecidableEq, Repr

/-- The per-column update of one row's value: empty values bump only the
empty counter; non-empty values update min/max (lexicographically, as in
Go's `<`/`>` on strings) and, while inference is active, the numeric
counters. -/
def updColAcc (tiActive : Bool) (c : ColAcc) (v : String) : ColAcc :=
  if v = "" then { c with empty := c.empty + 1 }
  else
    let c1 := { c with
      min := if c.min = "" ∨ strLt v c.min then v else c.min,
      max := if c.max = "" ∨ strLt c.max v then v else c.max }
    if tiActive then
      { c1 with
        nonEmpty := c1.nonEmpty + 1,
        numCount := if (parseNum v).isSome then c1.numCount + 1 else c1.numCount }
    else c1

/-- Column update over a row: the Go loop runs for
`i < min(numCols, len(record))`, so the shorter list bounds the walk. -/
def updCols (tiActive : Bool) : List ColAcc → List String → List ColAcc
  | [], _ => []
  | c :: cs, [] => c :: cs
  | c :: cs, v :: vs => updColAcc tiActive c v :: updCols tiActive cs vs

/-- `Builder.flushBlock`: emit the accumulated block (a no-op when it is
empty) and reset the per-block statistics.  The Go panics cannot fire —
see `buildFromLines_invariants`. -/
def flushState (st : BuildState) : BuildState :=
  if st.currentRow = st.blockStartRow then st
  else
    { st with
      blocks := st.blocks ++
        [{ startRow := st.blockStartRow, endRow := st.currentRow,
           startOffset := st.blockStartOffset, endOffset := st.lastRowEndOffset,
           columns := st.cols.map (fun c => ⟨c.min, c.max, c.empty⟩) }],
      blockStartRow := st.currentRow,
      blockStartOffset := st.lastRowEndOffset,
      cols := st.cols.map (fun c => { c with min := "", max := "", empty := 0 }) }

/-- `Builder.finalizeTypeInference`: a column is numeric iff it had a
non-empty value and at least 80% of its non-empty values parsed. -/
def finalizeTI (cols : List ColAcc) : List ColumnType :=
  cols.map (fun c =>
    if c.nonEmpty > 0 ∧ c.nonEmpty * 4 ≤ c.numCount * 5 then .numeric else .string)

/-- The body of a data-row iteration up to the block-size check: fix
the fresh block's start offset, fold in the row's statistics, and
advance the row and offset counters. -/
def stepData (st : BuildState) (fields : List String) (rawLen : Nat) :
    BuildState :=
  { st with
    blockStartOffset := if st.rowInBlock = 0 then st.offset else st.blockStartOffset
    cols := updCols st.tiActive st.cols fields
    currentRow := st.currentRow + 1
    rowInBlock := st.rowInBlock + 1
    offset := st.offset + rawLen
    lastRowEndOffset := st.offset + rawLen }

/-- Close type inference after the first flushed block. -/
def finishTI (st : BuildState) : BuildState :=
  if st.tiActive then
    { st with types := some (finalizeTI st.cols), tiActive := false }
  else st

/-- One iteration of the `BuildFromFile` row loop. -/
def stepLine (st : BuildState) : BLine → BuildState
  | .blank rawLen => { st with offset := st.offset + rawLen }
  | .data fields rawLen =>
    let st4 := stepData st fields rawLen
    if st4.blockSize ≤ st4.rowInBlock then
      finishTI { flushState st4 with rowInBlock := 0 }
    else st4

/-- The initial builder state, after the header line has been consumed:
all offsets sit at the first data byte. -/
def initState (blockSize : Nat) (skipTI : Bool) (numCols headerRawLen : Nat) :
    BuildState :=
  { blockSize := blockSize
    currentRow := 0
    blocks := []
    blockStartRow := 0
    blockStartOffset := headerRawLen
    lastRowEndOffset := headerRawLen
    cols := List.replicate numCols ⟨"", "", 0, 0, 0⟩
    tiActive := !skipTI
    types := none
    offset := headerRawLen
    rowInBlock := 0 }

/-- `Builder.BuildFromFile` on an already-read header and data section:
fold the row loop over the lines, flush a final partial block, finish
type inference, and assemble the `Index`.  The magic field of the
returned header is the Go zero value (four zero bytes): `BuildFromFile`
never sets it. -/
def buildFromLines (blockSize : Nat) (skipTI : Bool) (headers : List String)
    (headerRawLen : Nat) (lines : List BLine) (fileSize fileMtime : Int) :
    Index :=
  let st := lines.foldl stepLine (initState blockSize skipTI headers.length headerRawLen)
  let st1 := if st.blockStartRow < st.currentRow then flushState st else st
  let types :=
    if st1.tiActive then finalizeTI st1.cols
    else match st1.types with
      | some ts => ts
      | none => List.replicate headers.length ColumnType.string
  { header := {
      magic := [0, 0, 0, 0]
      version := 3
      blockSize := blockSize
      numBlocks := st1.blocks.length
      fileSize := fileSize
      fileMtime := fileMtime
      columns := List.zipWith (fun n t => ⟨n, t⟩) headers types }
    blocks := st1.blocks }

/-! ## Engine row pipelines (`internal/engine`)

The scanners are modelled at the level of parsed rows: the field parser
turns the source into a header and a list of records, and the pipelines
below reproduce what each scanner emits for those records. -/

/-- The sequential scanner's row map (`Execute`): for each header
ordinal that the record covers, bind the pre-normalized header name to
the field; ordinals beyond the record are left out of the map.  Later
bindings shadow earlier ones (Go map overwrite), hence the reversal. -/
def rowMapSeq (hs vs : List String) : RowMap :=
  (hs.zip vs).reverse

/-- The parallel workers' row map (`processBatches`): identical except
that ordinals beyond the record are bound to the empty string. -/
def rowMapPar (hs vs : List String) : RowMap :=
  (hs.zip (vs ++ List.replicate (hs.length - vs.length) "")).reverse

/-- WHERE outcome of one record in the sequential scanner. -/
def passesSeq (wh : Option Expression) (hs : List String) (r : List String) : Bool :=
  match wh with
  | none => true
  | some e => evaluateNormalized e (rowMapSeq hs r)

/-- WHERE outcome of one record in a parallel worker. -/
def passesPar (wh : Option Expression) (hs : List String) (r : List String) : Bool :=
  match wh with
  | none => true
  | some e => evaluateNormalized e (rowMapPar hs r)

/-- `engine.project`: selected ordinals beyond the record's last field
project to the empty string (the Go slice's zero value is kept). -/
def project (record : List String) (columns : List Nat) : List String :=
  columns.map (fun idx => if idx < record.length then record.getD idx "" else "")

/-- The sequential scanner's write loop (`Execute`): a matching row is
projected and emitted, `written` is incremented, and the loop breaks
when `limit >= 0 && written >= limit` — i.e. the check runs after the
row has already been written. -/
def seqLoop (wh : Option Expression) (hs : List String) (sel : List Nat)
    (limit : Int) : Nat → List (List String) → List (List String)
  | _, [] => []
  | written, r :: rs =>
    if passesSeq wh hs r then
      let out := project r sel
      if 0 ≤ limit ∧ limit ≤ (written + 1 : Int) then [out]
      else out :: seqLoop wh hs sel limit (written + 1) rs
    else seqLoop wh hs sel limit written rs

/-- Data rows emitted by the sequential file path (no index loaded). -/
def seqExecRows (hs : List String) (rows : List (List String))
    (wh : Option Expression) (sel : List Nat) (limit : Int) : List (List String) :=
  seqLoop wh hs sel limit 0 rows

/-- The stdin path's column map (`executeFromStdin`): lower-cased header
name to ordinal, later duplicates overwriting earlier ones; the
first-match discipline of `List.lookup` over the deduplicated reversed
list reproduces the Go map. -/
def dedupKeys : List (String × Nat) → List (String × Nat)
  | [] => []
  | (k, v) :: t => (k, v) :: (dedupKeys t).filter (fun p => p.1 ≠ k)

/-- `colMap` of `executeFromStdin`. -/
def colMapStdin (hs : List String) : List (String × Nat) :=
  dedupKeys ((hs.enum.map (fun p => (lowerStr p.2, p.1))).reverse)

/-- The stdin path's per-row map: every column of the map whose ordinal
the record covers is bound; the rest stay absent. -/
def rowMapStdin (colMap : List (String × Nat)) (r : List String) : RowMap :=
  colMap.filterMap (fun p =>
    if p.2 < r.length then some (p.1, r.getD p.2 "") else none)

/-- The stdin write loop (`executeFromStdin`): identical to the
sequential loop except that the LIMIT break requires `Limit > 0` — a
zero limit never stops the loop. -/
def stdinLoop (wh : Option Expression) (colMap : List (String × Nat))
    (outIdxs : List Nat) (limit : Int) : Nat → List (List String) → List (List String)
  | _, [] => []
  | rowCount, r :: rs =>
    let pass := match wh with
      | none => true
      | some e => evaluate e (rowMapStdin colMap r)
    if pass then
      let out := project r outIdxs
      if 0 < limit ∧ limit ≤ (rowCount + 1 : Int) then [out]
      else out :: stdinLoop wh colMap outIdxs limit (rowCount + 1) rs
    else stdinLoop wh colMap outIdxs limit rowCount rs

/-- Data rows emitted by the stdin path. -/
def stdinExecRows (hs : List String) (rows : List (List String))
    (wh : Option Expression) (outIdxs : List Nat) (limit : Int) : List (List String) :=
  stdinLoop wh (colMapStdin hs) outIdxs limit 0 rows

/-- The reader goroutine's batching (`ParallelExecute`): rows are packed
into consecutive batches of `n` rows, the last one possibly partial. -/
def chunkList (n : Nat) : List (List String) → List (List (List String))
  | [] => []
  | x :: xs => (x :: xs.take (n - 1)) :: chunkList n (xs.drop (n - 1))
termination_by xs => xs.length
decreasing_by
  simp only [List.length_drop, List.length_cons]
  omega

/-- One worker's processing of one batch (`processBatches`): filter by
WHERE (with the empty-string-padded row map) and project, preserving
row order. -/
def processBatch (wh : Option Expression) (hs : List String) (sel : List Nat)
    (batch : List (List String)) : List (List String) :=
  (batch.filter (passesPar wh hs)).map (fun r => project r sel)

/-- The dispatcher's LIMIT cut: rows are written in batch-id order and
the check `limit >= 0 && rowCount >= limit` runs before each write. -/
def takeLimit (limit : Int) (xs : List (List String)) : List (List String) :=
  if 0 ≤ limit then xs.take limit.toNat else xs

/-- Data rows emitted by the parallel path: batches are processed
independently and reassembled in batch-id order, then cut at the
limit.  `batchSize` is 10 000 in the Go code. -/
def parExecRows (hs : List String) (rows : List (List String))
    (wh : Option Expression) (sel : List Nat) (limit : Int)
    (batchSize : Nat) : List (List String) :=
  takeLimit limit (((chunkList batchSize rows).map (processBatch wh hs sel)).flatten)

/-! ## The two line parsers feeding the scanners

The no-index sequential path of `Execute` parses data rows with
`FastCSVReader` (`internal/engine/orderby_parallel.go`), while
`ParallelExecute`'s reader goroutine parses with Go's `encoding/csv`.
The two disagree outside simple records: the fast reader trims ASCII
space around every field and turns a blank line into the one-field
record `[""]`, whereas `encoding/csv` keeps fields verbatim and skips
blank lines.  Both are modelled on terminator-stripped lines. -/

/-- `bytes.ReplaceAll(cleaned, `""`, `"`)`: decode doubled quotes,
left to right. -/
def unescapeQQ : List Char → List Char
  | '"' :: '"' :: rest => '"' :: unescapeQQ rest
  | c :: rest => c :: unescapeQQ rest
  | [] => []

/-- The per-field cleanup of `FastCSVReader.Read`: a field that saw no
quote is space-trimmed; otherwise it is trimmed, stripped of one pair
of surrounding quotes, and unescaped.  (On the pathological one-quote
field, where the Go slice expression would panic, the model yields the
empty remainder; no theorem below feeds it quotes.) -/
def fastClean (field : List Char) (hasQuote : Bool) : String :=
  if !hasQuote then ⟨trimChars field⟩
  else
    let cleaned := trimChars field
    let stripped :=
      if cleaned ≠ [] ∧ cleaned.head? = some '"' ∧ cleaned.getLast? = some '"' then
        (cleaned.drop 1).dropLast
      else cleaned
    ⟨unescapeQQ stripped⟩

/-- The field-splitting loop of `FastCSVReader.Read`: `"` toggles the
in-quote flag and marks the field, `,` outside quotes closes a field
(resetting the per-field quote mark), and the tail is the last field.
`cur` holds the current field's bytes in reverse. -/
def fastSplitAux : List Char → List Char → Bool → Bool → List String
  | [], cur, _, hasQuote => [fastClean cur.reverse hasQuote]
  | c :: rest, cur, inQuote, hasQuote =>
    if c = '"' then fastSplitAux rest (c :: cur) (!inQuote) true
    else if c = ',' ∧ ¬inQuote then
      fastClean cur.reverse hasQuote :: fastSplitAux rest [] inQuote false
    else fastSplitAux rest (c :: cur) inQuote hasQuote

/-- `FastCSVReader.Read` on one terminator-stripped line.  A blank line
yields the one-field record `[""]`. -/
def fastReadLine (cs : List Char) : List String :=
  fastSplitAux cs [] false false

/-- Split a line on commas, fields verbatim (`cur` in reverse). -/
def splitCommaAux : List Char → List Char → List (List Char)
  | [], cur => [cur.reverse]
  | c :: rest, cur =>
    if c = ',' then cur.reverse :: splitCommaAux rest []
    else splitCommaAux rest (c :: cur)

/-- Plain comma split of a line. -/
def splitOnComma (cs : List Char) : List (List Char) :=
  splitCommaAux cs []

/-- Go's `encoding/csv` `Reader.Read` (default options,
`FieldsPerRecord = -1`) on one terminator-stripped line, modelled for
records containing no double quote — the only records the theorems
below feed it: a blank line produces no record (the reader skips it),
any other line splits on commas with fields kept verbatim (no
trimming).  Quoted-field decoding is outside the model. -/
def csvReadLine (cs : List Char) : Option (List String) :=
  if cs.isEmpty then none
  else some ((splitOnComma cs).map (fun f => (⟨f⟩ : String)))

/-- A simple line: non-blank, quote-free, and no field carries leading
or trailing ASCII space.  On this class the fast parser and the csv
parser read the same record. -/
def simpleLine (cs : List Char) : Bool :=
  !cs.isEmpty && !cs.contains '"' &&
    (splitOnComma cs).all (fun f => trimChars f = f)

/-- Data rows emitted by the no-index sequential file path, from raw
lines: every line (blank included) becomes a record via the fast
parser. -/
def seqExecLines (hs : List String) (lines : List (List Char))
    (wh : Option Expression) (sel : List Nat) (limit : Int) : List (List String) :=
  seqExecRows hs (lines.map fastReadLine) wh sel limit

/-- Data rows emitted by the parallel path, from raw lines: the reader
goroutine's `encoding/csv` parse, then batching, workers and ordered
reassembly. -/
def parExecLines (hs : List String) (lines : List (List Char))
    (wh : Option Expression) (sel : List Nat) (limit : Int)
    (batchSize : Nat) : List (List String) :=
  parExecRows hs (lines.filterMap csvReadLine) wh sel limit batchSize

/-! ## Planner, index validation and fallback (`Execute`, `ValidateIndex`) -/

/-- The strategies of §4.5. -/
inductive Strategy where
  | stdinStream
  | parallel
  | indexedSeq
  | sequential
deriving DecidableEq, Repr

/-- The dispatch logic of `Execute` combined with `ParallelExecute`'s
skip guards: stdin wins outright; otherwise the parallel path runs iff
no index is loaded, `SIDX_NO_PARALLEL` is not `1`, the file has at
least 10 MiB and the limit is not in `[0, 10000)`; otherwise the
(possibly indexed) sequential scanner runs. -/
def decideStrategy (indexLoaded isStdin noParallel : Bool)
    (fileSize limit : Int) : Strategy :=
  if isStdin then .stdinStream
  else if indexLoaded = false ∧ noParallel = false ∧
      10 * 1024 * 1024 ≤ fileSize ∧ ¬(0 ≤ limit ∧ limit < 10000) then .parallel
  else if indexLoaded then .indexedSeq
  else .sequential

/-- `sidx.ValidateIndex`: the sidecar is valid for the source iff the
recorded size and mtime match exactly and (when a dictionary is
present) the column names match the source header in order and count,
comparing case-insensitively after trimming the CSV-side name. -/
def validateIndex (idx : Index) (fileSize fileMtime : Int)
    (headerFields : List String) : Bool :=
  fileSize = idx.header.fileSize ∧
  fileMtime = idx.header.fileMtime ∧
  (idx.header.columns = [] ∨
    (headerFields.length = idx.header.columns.length ∧
     ∀ p ∈ headerFields.zip idx.header.columns,
       lowerStr (trimStr p.1) = lowerStr p.2.name))

/-- The index-acquisition prologue of `Execute` (lines 35–48): a missing
or unreadable sidecar and a sidecar failing validation all leave
`index = nil`; no error escapes. -/
def acquireIndex (sidecar : Option Index) (fileSize fileMtime : Int)
    (headerFields : List String) : Option Index :=
  match sidecar with
  | none => none
  | some idx =>
    if validateIndex idx fileSize fileMtime headerFields then some idx else none

/-- Is row number `i` inside some block that the pruner discards?  The
indexed scanner's seek-ahead never parses such rows. -/
def rowUnpruned (idx : Index) (e : Expression) (i : Nat) : Bool :=
  !(idx.blocks.any (fun b =>
    canPruneBlockExpr idx b e && decide (b.startRow ≤ i) && decide (i < b.endRow)))

/-- The indexed sequential scanner at row level: rows inside pruned
blocks are skipped (the Go scanner seeks past them), the rest flow
through WHERE, projection and the post-write LIMIT check. -/
def idxLoop (idx : Index) (e : Expression) (hs : List String) (sel : List Nat)
    (limit : Int) : Nat → Nat → List (List String) → List (List String)
  | _, _, [] => []
  | written, rowNo, r :: rs =>
    if rowUnpruned idx e rowNo then
      if evaluateNormalized e (rowMapSeq hs r) then
        let out := project r sel
        if 0 ≤ limit ∧ limit ≤ (written + 1 : Int) then [out]
        else out :: idxLoop idx e hs sel limit (written + 1) (rowNo + 1) rs
      else idxLoop idx e hs sel limit written (rowNo + 1) rs
    else idxLoop idx e hs sel limit written (rowNo + 1) rs

/-- The file-backed execution after index acquisition: with a validated
index and a predicate the indexed scanner runs, otherwise the plain
sequential scanner. -/
def executeFile (idx? : Option Index) (hs : List String)
    (rows : List (List String)) (wh : Option Expression) (sel : List Nat)
    (limit : Int) : List (List String) :=
  match idx?, wh with
  | some idx, some e => idxLoop idx e hs sel limit 0 0 rows
  | _, _ => seqExecRows hs rows wh sel limit

/-! ## Binary codec (`internal/sidx/format.go`)

Byte streams are lists of naturals (each below 256 on real data).
Multi-byte integers are little-endian; strings are serialized as their
code points, one per byte, which coincides with the Go byte layout on
ASCII data (the length prefix is the string's length in the same
units). -/

/-- Little-endian encoding of `n` into exactly `k` bytes (the writer's
`binary.Write` with a fixed-width integer truncates to the width). -/
def encodeLE : Nat → Nat → List Nat
  | 0, _ => []
  | k + 1, n => n % 256 :: encodeLE k (n / 256)

/-- Little-endian decoding of a byte list (bytes on a real stream are
below 256). -/
def decodeLE : List Nat → Nat
  | [] => 0
  | b :: bs => b + 256 * decodeLE bs

/-- `uint32` little-endian. -/
def encodeU32 (n : Nat) : List Nat := encodeLE 4 n

/-- `uint64` little-endian. -/
def encodeU64 (n : Nat) : List Nat := encodeLE 8 n

/-- `int64` little-endian, two's complement. -/
def encodeI64 (i : Int) : List Nat := encodeLE 8 (i % (2 ^ 64 : Int)).toNat

/-- String payload bytes. -/
def strBytes (s : String) : List Nat := s.data.map Char.toNat

/-- Inverse of `strBytes`. -/
def decodeStr (bs : List Nat) : String := ⟨bs.map Char.ofNat⟩

/-- The magic bytes `"SIDX"`. -/
def sidxMagic : List Nat := [83, 73, 68, 88]

/-- A length-prefixed string field (`u32` length, then the bytes). -/
def encodeStrField (s : String) : List Nat :=
  encodeU32 s.length ++ strBytes s

/-- One column-dictionary entry on the wire. -/
def encodeColumnInfo (c : ColumnInfo) : List Nat :=
  encodeStrField c.name ++ [c.type.toByte]

/-- One per-column statistics record on the wire (`EmptyCount` is always
written — the writer is version-3). -/
def encodeColumnStats (s : ColumnStats) : List Nat :=
  encodeStrField s.min ++ encodeStrField s.max ++ encodeU32 (s.emptyCount % 2 ^ 32)

/-- One block on the wire. -/
def encodeBlock (b : BlockMeta) : List Nat :=
  encodeU64 b.startRow ++ encodeU64 b.endRow ++
  encodeU64 b.startOffset ++ encodeU64 b.endOffset ++
  b.columns.flatMap encodeColumnStats

/-- `sidx.WriteIndex`: the writer emits the literal magic `"SIDX"`
(ignoring the in-memory magic field), the header fields, the column
dictionary, and then `idx.blocks` in order — whatever `numBlocks`
says. -/
def writeIndex (idx : Index) : List Nat :=
  sidxMagic ++
  encodeU32 idx.header.version ++
  encodeU32 idx.header.blockSize ++
  encodeU32 idx.header.numBlocks ++
  encodeI64 idx.header.fileSize ++
  encodeI64 idx.header.fileMtime ++
  encodeU32 idx.header.columns.length ++
  idx.header.columns.flatMap encodeColumnInfo ++
  idx.blocks.flatMap encodeBlock

/-- Byte-stream parsers: a parser returns the value and the unconsumed
rest, or `none` where the Go reader returns an error (including short
reads). -/
def PRead (α : Type) := List Nat → Option (α × List Nat)

/-- Sequencing of parsers. -/
def pbind {α β : Type} (p : PRead α) (f : α → PRead β) : PRead β :=
  fun bs =>
    match p bs with
    | none => none
    | some (a, rest) => f a rest

/-- A parser that consumes nothing. -/
def ppure {α : Type} (a : α) : PRead α := fun bs => some (a, bs)

/-- The failing parser. -/
def pfail {α : Type} : PRead α := fun _ => none

/-- `io.ReadFull` into an `n`-byte buffer. -/
def readExact (n : Nat) : PRead (List Nat) :=
  fun bs => if n ≤ bs.length then some (bs.take n, bs.drop n) else none

/-- `binary.Read` of a `uint32`. -/
def readU32 : PRead Nat :=
  pbind (readExact 4) (fun b => ppure (decodeLE b))

/-- `binary.Read` of a `uint64`. -/
def readU64 : PRead Nat :=
  pbind (readExact 8) (fun b => ppure (decodeLE b))

/-- `binary.Read` of an `int64` (two's complement). -/
def readI64 : PRead Int :=
  pbind (readExact 8) (fun b => ppure (
    let n := decodeLE b
    if n < 2 ^ 63 then (n : Int) else (n : Int) - 2 ^ 64))

/-- `binary.Read` of a `uint8`. -/
def readByte : PRead Nat :=
  pbind (readExact 1) (fun b => ppure (decodeLE b))

/-- A length-prefixed string field. -/
def readStr : PRead String :=
  pbind readU32 (fun n => pbind (readExact n) (fun b => ppure (decodeStr b)))

/-- Read `k` consecutive records with the same parser. -/
def readN {α : Type} (p : PRead α) : Nat → PRead (List α)
  | 0 => ppure []
  | k + 1 =>
    pbind p (fun a => pbind (readN p k) (fun as => ppure (a :: as)))

/-- One column-dictionary entry. -/
def readColumnInfo : PRead ColumnInfo :=
  pbind readStr (fun name =>
    pbind readByte (fun t => ppure ⟨name, ColumnType.ofByte t⟩))

/-- One per-column statistics record: `EmptyCount` is read only for
version ≥ 3 and defaults to zero otherwise. -/
def readColumnStats (version : Nat) : PRead ColumnStats :=
  pbind readStr (fun mn =>
    pbind readStr (fun mx =>
      if 3 ≤ version then
        pbind readU32 (fun ec => ppure ⟨mn, mx, ec⟩)
      else ppure ⟨mn, mx, 0⟩))

/-- One block. -/
def readBlock (version numColumns : Nat) : PRead BlockMeta :=
  pbind readU64 (fun sr =>
    pbind readU64 (fun er =>
      pbind readU64 (fun so =>
        pbind readU64 (fun eo =>
          pbind (readN (readColumnStats version) numColumns) (fun stats =>
            ppure ⟨sr, er, so, eo, stats⟩)))))

/-- `sidx.ReadIndex`: check the magic, read the header fields and the
column dictionary, then `numBlocks` blocks with `numColumns` stats
each.  The only structural check is the magic; the version field is
stored but never rejected. -/
def readIndex (bs : List Nat) : Option Index :=
  (pbind (readExact 4) (fun magic =>
    if magic = sidxMagic then
      pbind readU32 (fun version =>
        pbind readU32 (fun blockSize =>
          pbind readU32 (fun numBlocks =>
            pbind readI64 (fun fileSize =>
              pbind readI64 (fun fileMtime =>
                pbind readU32 (fun numColumns =>
                  pbind (readN readColumnInfo numColumns) (fun cols =>
                    pbind (readN (readBlock version numColumns) numBlocks) (fun blocks =>
                      ppure (Index.mk
                        ⟨magic, version, blockSize, numBlocks, fileSize, fileMtime, cols⟩
                        blocks)))))))))
    else pfail) bs).map Prod.fst

/-! ## Concrete instances used by the claim theorems -/

/-- The build over the two-row file `a\n10\n9\n` with block size 2: one
block, column `a` inferred numeric, the lexicographic running min/max
giving `min = "10"`, `max = "9"`. -/
def pruneExIndex : Index :=
  buildFromLines 2 false ["a"] 2 [.data ["10"] 3, .data ["9"] 2] 7 0

/-- The single block of `pruneExIndex`. -/
def pruneExBlock : BlockMeta :=
  pruneExIndex.blocks.headD ⟨0, 0, 0, 0, []⟩

/-- The predicate `a > 9`. -/
def pruneExPred : Expression :=
  .comparison (mkComparison "a" ">" "9")

/-- The predicate `b = ''` (an empty-string lexicographic equality). -/
def shortRowPred : Expression :=
  .comparison (mkComparison "b" "=" "")

/-- An index whose version field is 99 — not a version the format has
ever defined (the current version is 3). -/
def v99Index : Index :=
  { header := { magic := [0, 0, 0, 0], version := 99, blockSize := 0,
                numBlocks := 0, fileSize := 0, fileMtime := 0, columns := [] }
    blocks := [] }

/-- An index recording a source size of 10 bytes. -/
def staleIndex : Index :=
  { header := { magic := [0, 0, 0, 0], version := 3, blockSize := 4,
                numBlocks := 0, fileSize := 10, fileMtime := 0, columns := [] }
    blocks := [] }

/-- An index as the builder leaves it in memory: the magic field is the
Go zero value, not `"SIDX"`. -/
def zeroMagicIndex : Index :=
  { header := { magic := [0, 0, 0, 0], version := 3, blockSize := 64,
                numBlocks := 0, fileSize := 1, fileMtime := 2, columns := [] }
    blocks := [] }

/-- Well-formedness of an in-memory index for a faithful round trip:
version at least 3 (the writer always emits `EmptyCount`, so older
versions mis-parse on read-back), every fixed-width field in range,
`numBlocks` agreeing with the number of blocks, and one stats record
per dictionary column in every block. -/
def wellFormedIndex (idx : Index) : Prop :=
  3 ≤ idx.header.version ∧ idx.header.version < 2 ^ 32 ∧
  idx.header.blockSize < 2 ^ 32 ∧
  idx.header.numBlocks = idx.blocks.length ∧ idx.blocks.length < 2 ^ 32 ∧
  -(2 ^ 63) ≤ idx.header.fileSize ∧ idx.header.fileSize < 2 ^ 63 ∧
  -(2 ^ 63) ≤ idx.header.fileMtime ∧ idx.header.fileMtime < 2 ^ 63 ∧
  idx.header.columns.length < 2 ^ 32 ∧
  (∀ c ∈ idx.header.columns, c.name.length < 2 ^ 32) ∧
  (∀ b ∈ idx.blocks,
    (b.startRow < 2 ^ 64 ∧ b.endRow < 2 ^ 64 ∧
     b.startOffset < 2 ^ 64 ∧ b.endOffset < 2 ^ 64) ∧
    b.columns.length = idx.header.columns.length ∧
    ∀ s ∈ b.columns,
      s.min.length < 2 ^ 32 ∧ s.max.length < 2 ^ 32 ∧ s.emptyCount < 2 ^ 32)

/-- Is a raw line blank? -/
def blankLine : BLine → Bool
  | .blank _ => true
  | .data _ _ => false

/-- A column's "declared comparison" as the specification words it:
numeric when the column's type is numeric and both operands parse,
lexicographic otherwise. -/
def declaredLe (t : ColumnType) (a b : String) : Bool :=
  match t, parseNum a, parseNum b with
  | .numeric, some x, some y => x.le y
  | _, _, _ => strLe a b

/-- Contiguity of consecutive blocks (spec invariant I1). -/
def blockContig (blocks : List BlockMeta) : Prop :=
  List.Chain' (fun a b => a.endRow = b.startRow ∧ a.endOffset = b.startOffset)
    blocks

/-- Claim C5 as stated: contiguity, per-block row/offset ordering,
min ≤ max under the declared comparison, and bounded empty counts. -/
def claimC5Spec (idx : Index) : Prop :=
  blockContig idx.blocks ∧
  ∀ b ∈ idx.blocks,
    b.startRow < b.endRow ∧ b.startOffset ≤ b.endOffset ∧
    (∀ p ∈ idx.header.columns.zip b.columns,
      declaredLe p.1.type p.2.min p.2.max = true) ∧
    ∀ s ∈ b.columns, s.emptyCount ≤ b.endRow - b.startRow

/-- The loop invariant of `BuildFromFile` over blank-free input: the
flushed blocks are contiguous and well formed, the current accumulation
links onto the last flushed block, and the running statistics are
coherent with the rows seen so far in the current block. -/
structure BuildInv (st : BuildState) : Prop where
  chain : blockContig st.blocks
  lastLink : ∀ b, st.blocks.getLast? = some b →
    b.endRow = st.blockStartRow ∧ b.endOffset = st.blockStartOffset
  blocksOK : ∀ b ∈ st.blocks,
    b.startRow < b.endRow ∧ b.startOffset ≤ b.endOffset ∧
    ∀ s ∈ b.columns,
      strLe s.min s.max = true ∧ s.emptyCount ≤ b.endRow - b.startRow
  rowsEq : st.currentRow = st.blockStartRow + st.rowInBlock
  offEq : st.offset = st.lastRowEndOffset
  startLe : st.blockStartOffset ≤ st.lastRowEndOffset
  startEq0 : st.rowInBlock = 0 → st.blockStartOffset = st.lastRowEndOffset
  colsOK : ∀ c ∈ st.cols,
    strLe c.min c.max = true ∧ (c.min = "" ↔ c.max = "") ∧
    c.empty ≤ st.rowInBlock

/-! ## Helper lemmas -/

/-- `charsLt` is irreflexive. -/
theorem charsLt_irrefl : ∀ l : List Char, charsLt l l = false
  | [] => rfl
  | a :: as => by
    rw [charsLt, if_neg (by omega), if_neg (by omega)]
    exact charsLt_irrefl as

/-- `strLe` is reflexive. -/
theorem strLe_refl (a : String) : strLe a a = true := by
  simp [strLe, strLt, charsLt_irrefl]

/-- The running min/max/empty-count statistics stay coherent under one
row's update: min ≤ max, min and max are set together, and the empty
count grows by at most one. -/
theorem updColAcc_inv (ti : Bool) (c : ColAcc) (v : String) (k : Nat)
    (h1 : strLe c.min c.max = true) (h2 : c.min = "" ↔ c.max = "")
    (h3 : c.empty ≤ k) :
    strLe (updColAcc ti c v).min (updColAcc ti c v).max = true ∧
    ((updColAcc ti c v).min = "" ↔ (updColAcc ti c v).max = "") ∧
    (updColAcc ti c v).empty ≤ k + 1 := by
  by_cases hv : v = ""
  · rw [updColAcc, if_pos hv]
    refine ⟨h1, h2, ?_⟩
    show c.empty + 1 ≤ k + 1
    omega
  · have hfields :
        (updColAcc ti c v).min = (if c.min = "" ∨ strLt v c.min then v else c.min) ∧
        (updColAcc ti c v).max = (if c.max = "" ∨ strLt c.max v then v else c.max) ∧
        (updColAcc ti c v).empty = c.empty := by
      rw [updColAcc, if_neg hv]
      by_cases hti : ti = true
      · rw [if_pos hti]
        exact ⟨rfl, rfl, rfl⟩
      · rw [if_neg hti]
        exact ⟨rfl, rfl, rfl⟩
    obtain ⟨hmin, hmax, hemp⟩ := hfields
    rw [hmin, hmax, hemp]
    by_cases hm : c.min = ""
    · have hM : c.max = "" := h2.mp hm
      rw [if_pos (Or.inl hm), if_pos (Or.inl hM)]
      exact ⟨strLe_refl v, by simp [hv], by omega⟩
    · have hM : ¬ c.max = "" := fun h => hm (h2.mpr h)
      by_cases hvm : strLt v c.min = true
      · by_cases hMv : strLt c.max v = true
        · rw [if_pos (Or.inr hvm), if_pos (Or.inr hMv)]
          exact ⟨strLe_refl v, by simp [hv], by omega⟩
        · rw [if_pos (Or.inr hvm), if_neg (by
            rintro (h | h)
            · exact hM h
            · exact hMv h)]
          refine ⟨?_, by simp [hv, hM], by omega⟩
          rw [strLe]
          simp only [Bool.not_eq_true'] at hMv
          simp [hMv]
      · by_cases hMv : strLt c.max v = true
        · rw [if_neg (by
            rintro (h | h)
            · exact hm h
            · exact hvm h), if_pos (Or.inr hMv)]
          refine ⟨?_, by simp [hv, hm], by omega⟩
          rw [strLe]
          simp only [Bool.not_eq_true'] at hvm
          simp [hvm]
        · rw [if_neg (by
            rintro (h | h)
            · exact hm h
            · exact hvm h), if_neg (by
            rintro (h | h)
            · exact hM h
            · exact hMv h)]
          exact ⟨h1, h2, by omega⟩

/-- Row update over the column accumulators preserves coherence, with
the row count advanced by one (columns the record does not cover keep
their counts, which still respect the larger bound). -/
theorem updCols_inv (ti : Bool) :
    ∀ (cs : List ColAcc) (vs : List String) (k : Nat),
      (∀ c ∈ cs, strLe c.min c.max = true ∧ (c.min = "" ↔ c.max = "") ∧
        c.empty ≤ k) →
      ∀ c ∈ updCols ti cs vs,
        strLe c.min c.max = true ∧ (c.min = "" ↔ c.max = "") ∧
        c.empty ≤ k + 1 := by
  intro cs
  induction cs with
  | nil => intro vs k _ c hc; simp [updCols] at hc
  | cons c0 cs' ih =>
    intro vs k hall c hc
    cases vs with
    | nil =>
      rw [updCols] at hc
      obtain ⟨g1, g2, g3⟩ := hall c hc
      exact ⟨g1, g2, by omega⟩
    | cons v vs' =>
      rw [updCols] at hc
      rcases List.mem_cons.mp hc with hc | hc
      · subst hc
        obtain ⟨g1, g2, g3⟩ := hall c0 (List.mem_cons_self c0 cs')
        exact updColAcc_inv ti c0 v k g1 g2 g3
      · exact ih vs' k (fun d hd => hall d (List.mem_cons_of_mem c0 hd)) c hc

/-- `encodeLE` produces exactly `k` bytes. -/
theorem encodeLE_length : ∀ (k n : Nat), (encodeLE k n).length = k
  | 0, _ => rfl
  | k + 1, n => by
    rw [encodeLE, List.length_cons, encodeLE_length k (n / 256)]

/-- Decoding a `k`-byte little-endian encoding recovers the value mod
`256 ^ k`. -/
theorem decodeLE_encodeLE : ∀ (k n : Nat), decodeLE (encodeLE k n) = n % 256 ^ k
  | 0, n => by simp [encodeLE, decodeLE, Nat.mod_one]
  | k + 1, n => by
    rw [encodeLE, decodeLE, decodeLE_encodeLE k (n / 256)]
    have h : (256 : Nat) ^ (k + 1) = 256 * 256 ^ k := by ring
    rw [h, Nat.mod_mul]

/-- `readExact` splits off an exact-length prefix. -/
theorem readExact_append (n : Nat) (xs rest : List Nat) (h : xs.length = n) :
    readExact n (xs ++ rest) = some (xs, rest) := by
  subst h
  rw [readExact, if_pos (by simp), List.take_left, List.drop_left]

/-- Run a parser whose outcome on the stream is known, then continue. -/
theorem pbind_eq {α β : Type} (p : PRead α) (f : α → PRead β)
    (bs : List Nat) (a : α) (bs' : List Nat) (h : p bs = some (a, bs')) :
    pbind p f bs = f a bs' := by
  simp only [pbind, h]

/-- `readU32` inverts `encodeU32` below `2 ^ 32`. -/
theorem readU32_append (n : Nat) (rest : List Nat) (h : n < 2 ^ 32) :
    readU32 (encodeU32 n ++ rest) = some (n, rest) := by
  rw [readU32, pbind_eq _ _ _ (encodeU32 n) rest
      (readExact_append 4 _ _ (encodeLE_length 4 n))]
  rw [ppure, encodeU32, decodeLE_encodeLE, Nat.mod_eq_of_lt (by norm_num at h ⊢; omega)]

/-- `readU64` inverts `encodeU64` below `2 ^ 64`. -/
theorem readU64_append (n : Nat) (rest : List Nat) (h : n < 2 ^ 64) :
    readU64 (encodeU64 n ++ rest) = some (n, rest) := by
  rw [readU64, pbind_eq _ _ _ (encodeU64 n) rest
      (readExact_append 8 _ _ (encodeLE_length 8 n))]
  rw [ppure, encodeU64, decodeLE_encodeLE, Nat.mod_eq_of_lt (by norm_num at h ⊢; omega)]

/-- `readI64` inverts the two's-complement `encodeI64` on the `int64`
range. -/
theorem readI64_append (i : Int) (rest : List Nat)
    (h1 : -(2 ^ 63) ≤ i) (h2 : i < 2 ^ 63) :
    readI64 (encodeI64 i ++ rest) = some (i, rest) := by
  rw [readI64, encodeI64, pbind_eq _ _ _ (encodeLE 8 (i % (2 ^ 64 : Int)).toNat) rest
      (readExact_append 8 _ _ (encodeLE_length 8 _))]
  rw [ppure, decodeLE_encodeLE]
  have hm : ((i % (2 ^ 64 : Int)).toNat : Int) = i % (2 ^ 64 : Int) :=
    Int.toNat_of_nonneg (Int.emod_nonneg i (by norm_num))
  have hlt : (i % (2 ^ 64 : Int)).toNat < 256 ^ 8 := by
    have := Int.emod_lt_of_pos i (show (0 : Int) < 2 ^ 64 by norm_num)
    norm_num at this hm ⊢
    omega
  rw [Nat.mod_eq_of_lt hlt]
  norm_num at hm ⊢
  split
  · omega
  · omega

/-- Decoding the serialized code points recovers the string. -/
theorem decodeStr_strBytes (s : String) : decodeStr (strBytes s) = s := by
  rw [decodeStr, strBytes, List.map_map]
  have h : (s.data.map (Char.ofNat ∘ Char.toNat)) = s.data := by
    simp [Function.comp_def, Char.ofNat_toNat]
  rw [h]

/-- `readStr` inverts the length-prefixed string field. -/
theorem readStr_append (s : String) (rest : List Nat) (h : s.length < 2 ^ 32) :
    readStr (encodeStrField s ++ rest) = some (s, rest) := by
  rw [readStr, encodeStrField, List.append_assoc,
    pbind_eq _ _ _ s.length (strBytes s ++ rest) (readU32_append _ _ h),
    pbind_eq _ _ _ (strBytes s) rest
      (readExact_append _ _ _ (by simp [strBytes])),
    ppure, decodeStr_strBytes]

/-- `readN` inverts a concatenation of records, one parser success per
record. -/
theorem readN_append {α : Type} (p : PRead α) (enc : α → List Nat) :
    ∀ (l : List α) (rest : List Nat),
      (∀ a ∈ l, ∀ r : List Nat, p (enc a ++ r) = some (a, r)) →
      readN p l.length (l.flatMap enc ++ rest) = some (l, rest) := by
  intro l
  induction l with
  | nil => intro rest _; rfl
  | cons a t ih =>
    intro rest hall
    rw [List.length_cons, readN, List.flatMap_cons, List.append_assoc,
      pbind_eq _ _ _ a (t.flatMap enc ++ rest)
        (hall a (List.mem_cons_self a t) _),
      pbind_eq _ _ _ t rest
        (ih rest (fun b hb r => hall b (List.mem_cons_of_mem a hb) r)),
      ppure]

/-- A lookup over an association list misses when no key matches. -/
theorem lookup_eq_none_of_not_mem {k : String} :
    ∀ l : RowMap, (∀ p ∈ l, p.1 ≠ k) → l.lookup k = none := by
  intro l h
  induction l with
  | nil => rfl
  | cons p t ih =>
    have hp : p.1 ≠ k := h p (List.mem_cons_self p t)
    have hk : (k == p.1) = false := by
      simp [Ne.symm hp]
    simp only [List.lookup, hk]
    exact ih (fun q hq => h q (List.mem_cons_of_mem p hq))

/-- Keys of a zip lie among the first `rs.length` elements of the key
list. -/
theorem zip_fst_mem_take :
    ∀ (hs rs : List String) (p : String × String),
      p ∈ hs.zip rs → p.1 ∈ hs.take rs.length := by
  intro hs
  induction hs with
  | nil => intro rs p hp; simp [List.zip] at hp
  | cons h t ih =>
    intro rs p hp
    cases rs with
    | nil => simp [List.zip] at hp
    | cons r rs' =>
      simp only [List.zip_cons_cons, List.mem_cons] at hp
      rcases hp with hp | hp
      · subst hp; simp
      · simpa using Or.inr (ih rs' p hp)

/-- Flushing the accumulated block (and zeroing the in-block row
counter, as the row loop does) preserves the builder invariant; the
no-op case of an empty accumulation is included. -/
theorem flush_reset_inv (st : BuildState) (inv : BuildInv st) :
    BuildInv { flushState st with rowInBlock := 0 } := by
  by_cases h : st.currentRow = st.blockStartRow
  · rw [flushState, if_pos h]
    have hrow0 : st.rowInBlock = 0 := by
      have := inv.rowsEq
      omega
    refine ⟨inv.chain, ?_, inv.blocksOK, ?_, inv.offEq, inv.startLe, ?_, ?_⟩
    · exact fun b hb => inv.lastLink b hb
    · show st.currentRow = st.blockStartRow + 0
      omega
    · intro _
      exact inv.startEq0 hrow0
    · intro c hc
      obtain ⟨g1, g2, g3⟩ := inv.colsOK c hc
      exact ⟨g1, g2, by omega⟩
  · rw [flushState, if_neg h]
    have hlt : st.blockStartRow < st.currentRow := by
      have := inv.rowsEq
      omega
    refine ⟨?_, ?_, ?_, ?_, inv.offEq, le_refl _, fun _ => rfl, ?_⟩
    · show blockContig (st.blocks ++ [_])
      rw [blockContig, List.chain'_append]
      refine ⟨inv.chain, List.chain'_singleton _, ?_⟩
      intro x hx y hy
      simp only [List.head?_cons, Option.mem_def, Option.some.injEq] at hy
      subst hy
      exact inv.lastLink x hx
    · intro b hb
      rw [List.getLast?_concat] at hb
      injection hb with hb
      subst hb
      exact ⟨rfl, rfl⟩
    · intro b hb
      rcases List.mem_append.mp hb with hb | hb
      · exact inv.blocksOK b hb
      · rcases List.mem_singleton.mp hb with rfl
        refine ⟨hlt, inv.startLe, ?_⟩
        intro s hs
        simp only [List.mem_map] at hs
        obtain ⟨c, hc, rfl⟩ := hs
        obtain ⟨g1, g2, g3⟩ := inv.colsOK c hc
        refine ⟨g1, ?_⟩
        show c.empty ≤ st.currentRow - st.blockStartRow
        have := inv.rowsEq
        omega
    · show st.currentRow = st.currentRow + 0
      omega
    · intro c hc
      simp only [List.mem_map] at hc
      obtain ⟨d, hd, rfl⟩ := hc
      exact ⟨strLe_refl "", by simp, Nat.le_refl 0⟩

/-- Closing type inference touches only the inference fields and keeps
the invariant. -/
theorem finishTI_inv (st : BuildState) (inv : BuildInv st) :
    BuildInv (finishTI st) := by
  rw [finishTI]
  by_cases hti : st.tiActive = true
  · rw [if_pos hti]
    exact ⟨inv.chain, inv.lastLink, inv.blocksOK, inv.rowsEq, inv.offEq,
      inv.startLe, inv.startEq0, inv.colsOK⟩
  · rw [if_neg hti]
    exact inv

/-- The data-row stage preserves the invariant (the block-start offset
rewrite at the first row of a block is the identity on blank-free
input, because the running offset then equals the last row's end). -/
theorem stepData_inv (st : BuildState) (fields : List String) (rawLen : Nat)
    (inv : BuildInv st) : BuildInv (stepData st fields rawLen) := by
  have hstart : (if st.rowInBlock = 0 then st.offset else st.blockStartOffset) =
      st.blockStartOffset := by
    by_cases h0 : st.rowInBlock = 0
    · rw [if_pos h0, inv.offEq, inv.startEq0 h0]
    · rw [if_neg h0]
  refine ⟨inv.chain, ?_, inv.blocksOK, ?_, rfl, ?_, ?_, ?_⟩
  · intro b hb
    obtain ⟨g1, g2⟩ := inv.lastLink b hb
    refine ⟨g1, ?_⟩
    show b.endOffset = (if st.rowInBlock = 0 then st.offset else st.blockStartOffset)
    rw [hstart]
    exact g2
  · show st.currentRow + 1 = st.blockStartRow + (st.rowInBlock + 1)
    have := inv.rowsEq
    omega
  · show (if st.rowInBlock = 0 then st.offset else st.blockStartOffset) ≤
      st.offset + rawLen
    rw [hstart]
    have h1 := inv.startLe
    have h2 := inv.offEq
    omega
  · intro habs
    exact absurd (show st.rowInBlock + 1 = 0 from habs) (by omega)
  · exact updCols_inv st.tiActive st.cols fields st.rowInBlock inv.colsOK

/-- A blank-free line step preserves the invariant. -/
theorem stepLine_inv (st : BuildState) (l : BLine) (inv : BuildInv st)
    (hl : blankLine l = false) : BuildInv (stepLine st l) := by
  cases l with
  | blank n => simp [blankLine] at hl
  | data fields rawLen =>
    rw [stepLine]
    have inv4 := stepData_inv st fields rawLen inv
    by_cases hfl : (stepData st fields rawLen).blockSize ≤
        (stepData st fields rawLen).rowInBlock
    · rw [if_pos hfl]
      exact finishTI_inv _ (flush_reset_inv _ inv4)
    · rw [if_neg hfl]
      exact inv4

/-- The whole row loop preserves the invariant on blank-free input. -/
theorem foldl_stepLine_inv :
    ∀ (lines : List BLine) (st : BuildState), BuildInv st →
      (∀ l ∈ lines, blankLine l = false) →
      BuildInv (lines.foldl stepLine st) := by
  intro lines
  induction lines with
  | nil => intro st inv _; exact inv
  | cons l t ih =>
    intro st inv hnb
    rw [List.foldl_cons]
    exact ih (stepLine st l)
      (stepLine_inv st l inv (hnb l (List.mem_cons_self l t)))
      (fun m hm => hnb m (List.mem_cons_of_mem l hm))

/-- The initial builder state satisfies the invariant. -/
theorem initState_inv (blockSize : Nat) (skipTI : Bool)
    (numCols headerRawLen : Nat) :
    BuildInv (initState blockSize skipTI numCols headerRawLen) := by
  refine ⟨List.chain'_nil, ?_, ?_, rfl, rfl, le_refl _, fun _ => rfl, ?_⟩
  · intro b hb
    simp [initState] at hb
  · intro b hb
    simp [initState] at hb
  · intro c hc
    rw [initState] at hc
    rcases List.eq_of_mem_replicate hc with rfl
    exact ⟨strLe_refl "", by simp, Nat.le_refl 0⟩

/-- A single byte reads back as itself. -/
theorem readByte_append (b : Nat) (rest : List Nat) :
    readByte ([b] ++ rest) = some (b, rest) := by
  rw [readByte, pbind_eq _ _ _ [b] rest (readExact_append 1 _ _ rfl)]
  simp [ppure, decodeLE]

/-- Decoding the encoded type byte recovers the type. -/
theorem ofByte_toByte (t : ColumnType) : ColumnType.ofByte t.toByte = t := by
  cases t <;> rfl

/-- `readColumnInfo` inverts `encodeColumnInfo`. -/
theorem readColumnInfo_append (c : ColumnInfo) (rest : List Nat)
    (h : c.name.length < 2 ^ 32) :
    readColumnInfo (encodeColumnInfo c ++ rest) = some (c, rest) := by
  rw [readColumnInfo, encodeColumnInfo, List.append_assoc,
    pbind_eq _ _ _ c.name _ (readStr_append _ _ h),
    pbind_eq _ _ _ c.type.toByte _ (readByte_append _ _),
    ppure, ofByte_toByte]

/-- `readColumnStats` inverts `encodeColumnStats` for version ≥ 3. -/
theorem readColumnStats_append (version : Nat) (hv : 3 ≤ version)
    (s : ColumnStats) (rest : List Nat)
    (h : s.min.length < 2 ^ 32 ∧ s.max.length < 2 ^ 32 ∧ s.emptyCount < 2 ^ 32) :
    readColumnStats version (encodeColumnStats s ++ rest) = some (s, rest) := by
  obtain ⟨h1, h2, h3⟩ := h
  rw [readColumnStats, encodeColumnStats]
  simp only [List.append_assoc]
  rw [pbind_eq _ _ _ s.min _ (readStr_append _ _ h1),
    pbind_eq _ _ _ s.max _ (readStr_append _ _ h2),
    if_pos hv, Nat.mod_eq_of_lt h3,
    pbind_eq _ _ _ s.emptyCount _ (readU32_append _ _ h3),
    ppure]

/-- `readBlock` inverts `encodeBlock` when the block carries one stats
record per dictionary column. -/
theorem readBlock_append (version numColumns : Nat) (b : BlockMeta)
    (rest : List Nat) (hv : 3 ≤ version)
    (hsr : b.startRow < 2 ^ 64) (her : b.endRow < 2 ^ 64)
    (hso : b.startOffset < 2 ^ 64) (heo : b.endOffset < 2 ^ 64)
    (hc : b.columns.length = numColumns)
    (hstats : ∀ s ∈ b.columns,
      s.min.length < 2 ^ 32 ∧ s.max.length < 2 ^ 32 ∧ s.emptyCount < 2 ^ 32) :
    readBlock version numColumns (encodeBlock b ++ rest) = some (b, rest) := by
  rw [readBlock, encodeBlock]
  simp only [List.append_assoc]
  rw [pbind_eq _ _ _ b.startRow _ (readU64_append _ _ hsr),
    pbind_eq _ _ _ b.endRow _ (readU64_append _ _ her),
    pbind_eq _ _ _ b.startOffset _ (readU64_append _ _ hso),
    pbind_eq _ _ _ b.endOffset _ (readU64_append _ _ heo),
    ← hc,
    pbind_eq _ _ _ b.columns _ (readN_append _ _ b.columns rest
      (fun s hs r => readColumnStats_append version hv s r (hstats s hs))),
    ppure]

/-- When a record covers every header ordinal, the parallel row map's
empty-string padding is empty and the two maps coincide. -/
theorem rowMapPar_eq_rowMapSeq (hs r : List String) (h : hs.length ≤ r.length) :
    rowMapPar hs r = rowMapSeq hs r := by
  simp [rowMapPar, rowMapSeq, Nat.sub_eq_zero_of_le h]

/-- Full-width records pass WHERE identically in both scanners. -/
theorem passesPar_eq_passesSeq (wh : Option Expression) (hs r : List String)
    (h : hs.length ≤ r.length) :
    passesPar wh hs r = passesSeq wh hs r := by
  cases wh with
  | none => rfl
  | some e => simp [passesPar, passesSeq, rowMapPar_eq_rowMapSeq hs r h]

/-- The reader's batches concatenate back to the row stream. -/
theorem chunkList_flatten (n : Nat) (rows : List (List String)) :
    (chunkList n rows).flatten = rows := by
  induction rows using chunkList.induct n with
  | case1 => simp [chunkList]
  | case2 x xs ih =>
    rw [chunkList]
    simp only [List.flatten_cons, ih, List.cons_append, List.take_append_drop]

/-- Filtering and projecting each batch and concatenating equals
filtering and projecting the concatenation. -/
theorem flatten_map_filterMap (bss : List (List (List String)))
    (p : List String → Bool) (f : List String → List String) :
    (bss.map (fun b => (b.filter p).map f)).flatten =
      ((bss.flatten).filter p).map f := by
  induction bss with
  | nil => rfl
  | cons b t ih =>
    simp only [List.map_cons, List.flatten_cons, List.filter_append,
      List.map_append, ih]

/-- Without a limit, the sequential loop is filter-then-project. -/
theorem seqLoop_of_neg (wh : Option Expression) (hs : List String)
    (sel : List Nat) (limit : Int) (hneg : limit < 0) :
    ∀ (rows : List (List String)) (written : Nat),
      seqLoop wh hs sel limit written rows =
        (rows.filter (passesSeq wh hs)).map (fun r => project r sel) := by
  intro rows
  induction rows with
  | nil => intro written; rfl
  | cons r rs ih =>
    intro written
    by_cases hpass : passesSeq wh hs r
    · rw [seqLoop, if_pos hpass, if_neg (by omega), List.filter_cons_of_pos hpass,
        List.map_cons, ih]
    · rw [seqLoop, if_neg hpass, List.filter_cons_of_neg hpass, ih]

/-- With a positive limit, the sequential loop emits the prefix of the
filtered projection up to the remaining budget (the post-write check
`written >= limit` cuts exactly there once the budget is positive). -/
theorem seqLoop_of_pos (wh : Option Expression) (hs : List String)
    (sel : List Nat) (limit : Int) :
    ∀ (rows : List (List String)) (written : Nat), (written : Int) < limit →
      seqLoop wh hs sel limit written rows =
        ((rows.filter (passesSeq wh hs)).map (fun r => project r sel)).take
          (limit - written).toNat := by
  intro rows
  induction rows with
  | nil => intro written _; simp [seqLoop]
  | cons r rs ih =>
    intro written hw
    by_cases hpass : passesSeq wh hs r
    · rw [seqLoop, if_pos hpass, List.filter_cons_of_pos hpass, List.map_cons]
      by_cases hstop : 0 ≤ limit ∧ limit ≤ (written + 1 : Int)
      · rw [if_pos hstop]
        have h1 : (limit - written).toNat = 1 := by omega
        rw [h1]
        rfl
      · rw [if_neg hstop, ih (written + 1) (by omega)]
        have h2 : (limit - written).toNat = (limit - (written + 1)).toNat + 1 := by
          omega
        rw [h2]
        rfl
    · rw [seqLoop, if_neg hpass, List.filter_cons_of_neg hpass,
        ih written hw]

/-- Row-level core of the amended C3: when every record covers the
full header width, the parallel batching pipeline and the sequential
write loop agree on any positive-or-absent limit. -/
theorem parRows_eq_seqRows_full_width (hs : List String)
    (rows : List (List String)) (wh : Option Expression) (sel : List Nat)
    (limit : Int) (batchSize : Nat)
    (hw : ∀ r ∈ rows, hs.length ≤ r.length)
    (hlim : limit = -1 ∨ 1 ≤ limit) :
    parExecRows hs rows wh sel limit batchSize =
      seqExecRows hs rows wh sel limit := by
  have hfilter : rows.filter (passesPar wh hs) = rows.filter (passesSeq wh hs) :=
    List.filter_congr (fun r hr => by rw [passesPar_eq_passesSeq wh hs r (hw r hr)])
  have hpar : parExecRows hs rows wh sel limit batchSize =
      takeLimit limit ((rows.filter (passesSeq wh hs)).map (fun r => project r sel)) := by
    unfold parExecRows processBatch
    rw [flatten_map_filterMap, chunkList_flatten, hfilter]
  rw [hpar]
  rcases hlim with h | h
  · subst h
    rw [takeLimit, if_neg (by omega), seqExecRows,
      seqLoop_of_neg wh hs sel (-1) (by omega) rows 0]
  · rw [takeLimit, if_pos (by omega), seqExecRows,
      seqLoop_of_pos wh hs sel limit rows 0 (by omega)]
    norm_num

/-- On quote-free input, the fast splitter is the plain comma split
with each field space-trimmed. -/
theorem fastSplitAux_no_quote :
    ∀ (cs cur : List Char), cs.contains '"' = false →
      fastSplitAux cs cur false false =
        (splitCommaAux cs cur).map (fun f => (⟨trimChars f⟩ : String)) := by
  intro cs
  induction cs with
  | nil =>
    intro cur _
    simp [fastSplitAux, splitCommaAux, fastClean]
  | cons c rest ih =>
    intro cur h
    rw [List.contains_cons] at h
    simp only [Bool.or_eq_false_iff, beq_eq_false_iff_ne] at h
    obtain ⟨hc, hrest⟩ := h
    by_cases hcomma : c = ','
    · rw [fastSplitAux, if_neg (Ne.symm hc), if_pos ⟨hcomma, by simp⟩,
        splitCommaAux, if_pos hcomma, List.map_cons, ih [] hrest]
      rfl
    · rw [fastSplitAux, if_neg (Ne.symm hc), if_neg (by
        rintro ⟨h, -⟩
        exact hcomma h),
        splitCommaAux, if_neg hcomma, ih (c :: cur) hrest]

/-- On a simple line the fast parser returns the comma split verbatim. -/
theorem fastReadLine_simple (cs : List Char) (h : simpleLine cs = true) :
    fastReadLine cs = (splitOnComma cs).map (fun f => (⟨f⟩ : String)) := by
  rw [simpleLine] at h
  simp only [Bool.and_eq_true, Bool.not_eq_true', List.all_eq_true,
    decide_eq_true_eq] at h
  obtain ⟨⟨-, hq⟩, htrim⟩ := h
  rw [fastReadLine, splitOnComma, fastSplitAux_no_quote cs [] hq]
  exact List.map_congr_left (fun f hf => by rw [htrim f hf])

/-- On a simple line the csv parser returns the same record as the
fast parser. -/
theorem csvReadLine_simple (cs : List Char) (h : simpleLine cs = true) :
    csvReadLine cs = some (fastReadLine cs) := by
  have hne : cs.isEmpty = false := by
    rw [simpleLine] at h
    simp only [Bool.and_eq_true, Bool.not_eq_true'] at h
    exact h.1.1
  rw [csvReadLine, if_neg (by simp [hne]), fastReadLine_simple cs h]

/-- On a simple line the fast parser yields one field per comma
segment. -/
theorem fastReadLine_length_simple (cs : List Char) (h : simpleLine cs = true) :
    (fastReadLine cs).length = (splitOnComma cs).length := by
  rw [fastReadLine_simple cs h, List.length_map]

/-- Over simple lines the two paths parse the same row stream: the csv
parser skips nothing and agrees with the fast parser line by line. -/
theorem lines_rows_eq (lines : List (List Char))
    (h : ∀ l ∈ lines, simpleLine l = true) :
    lines.filterMap csvReadLine = lines.map fastReadLine := by
  induction lines with
  | nil => rfl
  | cons l t ih =>
    rw [List.filterMap_cons, csvReadLine_simple l (h l (List.mem_cons_self l t)),
      List.map_cons, ih (fun m hm => h m (List.mem_cons_of_mem l hm))]

/-! ## Claim theorems -/

/-- **C1.** The pruner is not conservative: on the index built from the
file `a\n10\n9\n` (block size 2) the predicate `a > 9` prunes the only
block — the pruner compares the stats numerically because the column is
inferred numeric, and `9 ≥ max` since the builder's lexicographic max
is `"9"` — yet row 0 of that block (value `"10"`, inside the block's
row range `[0, 2)`) satisfies `a > 9` under the WHERE evaluator.  The
claim that `can_prune = true` implies no row of the block matches is
therefore violated by the code. -/
theorem C1_canPrune_admits_matching_row :
    canPruneBlockExpr pruneExIndex pruneExBlock pruneExPred = true ∧
    pruneExBlock.startRow = 0 ∧ pruneExBlock.endRow = 2 ∧
    evaluateNormalized pruneExPred (rowMapSeq ["a"] ["10"]) = true := by
  decide

/-- **C2** (counterexample).  A numeric `!=` comparison against an
unparseable row value evaluates to `false`, not `true` as claimed:
`Comparison.Compare` returns `false` on the parse error before ever
looking at the operator. -/
theorem C2_neq_unparseable_false :
    (mkComparison "total" "!=" "5").isNumeric = true ∧
    parseNum "abc" = none ∧
    (mkComparison "total" "!=" "5").compare "abc" = false := by
  decide

/-- **C2** (amended).  For every numeric comparison and every row value
that does not parse as a double, the comparison evaluates to `false`
for all operators — including `!=`. -/
theorem C2_unparseable_always_false (c : Comparison) (v : String)
    (h1 : c.isNumeric = true) (h2 : parseNum v = none) :
    c.compare v = false := by
  simp [Comparison.compare, h1, h2]

/-- Witness for `C2_unparseable_always_false` at a concrete input. -/
theorem C2_unparseable_always_false_witness :
    (mkComparison "total" "<" "7").isNumeric = true ∧
    parseNum "xy" = none ∧
    (mkComparison "total" "<" "7").compare "xy" = false :=
  ⟨by decide, by decide,
    C2_unparseable_always_false (mkComparison "total" "<" "7") "xy"
      (by decide) (by decide)⟩

/-- **C3** (counterexample).  On the two-column header `a,b` and the
one-field row `x`, the query `WHERE b = ''` (no limit) emits the row on
the parallel path but not on the sequential path: the parallel worker
binds the missing column `b` to the empty string, while the sequential
scanner leaves it out of the row map, where the comparison is `false`.
The two paths do not emit identical rows. -/
theorem C3_parallel_differs_on_short_row :
    parExecRows ["a", "b"] [["x"]] (some shortRowPred) [0] (-1) 10000 = [["x"]] ∧
    seqExecRows ["a", "b"] [["x"]] (some shortRowPred) [0] (-1) = [] := by
  have h1 : chunkList 10000 [["x"]] = [[["x"]]] := by
    rw [chunkList]
    simp [chunkList]
  constructor
  · rw [parExecRows, h1]
    decide
  · decide

/-- The two paths also diverge through their parsers alone, on rows of
full width: on header `a,b` and the line `1, 2`, the fast parser of
the sequential path trims the second field to `"2"` (so `WHERE b = '2'`
matches numerically), while the parallel path's `encoding/csv` keeps
`" 2"` verbatim, which does not parse as a double, so the comparison is
false.  This forces the no-edge-space part of the simple-line proviso
in the amended C3. -/
theorem parser_divergence_on_padded_field :
    seqExecLines ["a", "b"] ["1, 2".data]
      (some (.comparison (mkComparison "b" "=" "2"))) [0] (-1) = [["1"]] ∧
    parExecLines ["a", "b"] ["1, 2".data]
      (some (.comparison (mkComparison "b" "=" "2"))) [0] (-1) 10000 = [] := by
  constructor
  · decide
  · have hr : ["1, 2".data].filterMap csvReadLine = [["1", " 2"]] := by decide
    rw [parExecLines, hr, parExecRows]
    have h1 : chunkList 10000 [["1", " 2"]] = [[["1", " 2"]]] := by
      rw [chunkList]
      simp [chunkList]
    rw [h1]
    decide

/-- **C3** (amended).  For every query on a source whose data lines are
simple — non-blank, quote-free, with no leading or trailing space
around any comma-separated field, so the no-index sequential path's
`FastCSVReader` and the parallel path's `encoding/csv` read identical
records — and whose rows all cover the header width, executing with
`SIDX_NO_PARALLEL=1` (sequential) and without it (parallel, under its
selection conditions the limit is absent or at least 10 000, hence
positive) emits the identical sequence of data rows, in source row
order. -/
theorem C3_parallel_eq_sequential_simple_lines (hs : List String)
    (lines : List (List Char)) (wh : Option Expression) (sel : List Nat)
    (limit : Int) (batchSize : Nat)
    (hsimple : ∀ l ∈ lines, simpleLine l = true)
    (hwidth : ∀ l ∈ lines, hs.length ≤ (splitOnComma l).length)
    (hlim : limit = -1 ∨ 1 ≤ limit) :
    parExecLines hs lines wh sel limit batchSize =
      seqExecLines hs lines wh sel limit := by
  rw [parExecLines, seqExecLines, lines_rows_eq lines hsimple]
  apply parRows_eq_seqRows_full_width
  · intro r hr
    obtain ⟨l, hl, rfl⟩ := List.mem_map.mp hr
    rw [fastReadLine_length_simple l (hsimple l hl)]
    exact hwidth l hl
  · exact hlim

/-- Witness for `C3_parallel_eq_sequential_simple_lines` at a concrete
input. -/
theorem C3_parallel_eq_sequential_simple_lines_witness :
    (∀ l ∈ ["1,2".data], simpleLine l = true) ∧
    parExecLines ["a", "b"] ["1,2".data]
        (some (.comparison (mkComparison "a" "=" "1"))) [0, 1] (-1) 10000 =
      seqExecLines ["a", "b"] ["1,2".data]
        (some (.comparison (mkComparison "a" "=" "1"))) [0, 1] (-1) :=
  ⟨by decide,
    C3_parallel_eq_sequential_simple_lines ["a", "b"] ["1,2".data]
      (some (.comparison (mkComparison "a" "=" "1"))) [0, 1] (-1) 10000
      (by decide) (by decide) (Or.inl rfl)⟩

/-- **C4.** `LIMIT 0` does not stop at the header: the sequential file
loop checks `written >= limit` only after writing a row, so the first
matching row is emitted; the stdin loop guards the break with
`Limit > 0`, so a zero limit never stops it and every matching row is
emitted. -/
theorem C4_limit_zero_emits_rows :
    seqExecRows ["a"] [["x"], ["y"]] none [0] 0 = [["x"]] ∧
    stdinExecRows ["a"] [["x"], ["y"]] none [0] 0 = [["x"], ["y"]] := by
  decide

/-- **C5** (counterexample).  The invariants as claimed fail on the
build over `a\n10\n9\n` (block size 2): the single block's stats are
the lexicographic `min = "10"`, `max = "9"`, the column is declared
numeric and both stats parse, and `10 ≤ 9` is false — so "min ≤ max
under the column's declared comparison" does not hold, although the
build succeeds (the builder validates min ≤ max only
lexicographically). -/
theorem C5_numeric_min_max_fails :
    ¬ claimC5Spec pruneExIndex := by
  intro h
  unfold claimC5Spec at h
  obtain ⟨-, hblocks⟩ := h
  have hb := hblocks pruneExBlock (by decide)
  have hmm := hb.2.2.1 (⟨"a", .numeric⟩, ⟨"10", "9", 0⟩) (by decide)
  exact absurd hmm (by decide)

/-- **C5** (amended).  After every successful build over input without
blank data lines, consecutive blocks are contiguous in both rows and
offsets, every block has `start_row < end_row` and
`start_offset ≤ end_offset`, every column's `min ≤ max` holds under
the lexicographic comparison (the builder's statistics are
lexicographic even for numeric columns), and every `empty_count` is at
most the block's row span.  (A blank line at a block boundary shifts
the next block's `start_offset` past the flushed block's `end_offset`,
so offset contiguity needs the blank-free hypothesis.) -/
theorem C5_build_invariants (blockSize : Nat) (skipTI : Bool)
    (headers : List String) (headerRawLen : Nat) (lines : List BLine)
    (fileSize fileMtime : Int)
    (hnb : ∀ l ∈ lines, blankLine l = false) :
    blockContig (buildFromLines blockSize skipTI headers headerRawLen lines
      fileSize fileMtime).blocks ∧
    ∀ b ∈ (buildFromLines blockSize skipTI headers headerRawLen lines
        fileSize fileMtime).blocks,
      b.startRow < b.endRow ∧ b.startOffset ≤ b.endOffset ∧
      ∀ s ∈ b.columns,
        strLe s.min s.max = true ∧ s.emptyCount ≤ b.endRow - b.startRow := by
  have inv := foldl_stepLine_inv lines
    (initState blockSize skipTI headers.length headerRawLen)
    (initState_inv blockSize skipTI headers.length headerRawLen) hnb
  set st := lines.foldl stepLine
    (initState blockSize skipTI headers.length headerRawLen) with hst
  have hblocks : (buildFromLines blockSize skipTI headers headerRawLen lines
      fileSize fileMtime).blocks =
      (if st.blockStartRow < st.currentRow then flushState st else st).blocks := rfl
  rw [hblocks]
  by_cases hg : st.blockStartRow < st.currentRow
  · rw [if_pos hg]
    have inv2 := flush_reset_inv st inv
    have heq : (flushState st).blocks =
        ({ flushState st with rowInBlock := 0 } : BuildState).blocks := rfl
    rw [heq]
    exact ⟨inv2.chain, inv2.blocksOK⟩
  · rw [if_neg hg]
    exact ⟨inv.chain, inv.blocksOK⟩

/-- Witness for `C5_build_invariants` at a concrete input. -/
theorem C5_build_invariants_witness :
    (∀ l ∈ [BLine.data ["5"] 2, BLine.data ["7"] 2], blankLine l = false) ∧
    (blockContig (buildFromLines 1 false ["a"] 2
        [BLine.data ["5"] 2, BLine.data ["7"] 2] 6 0).blocks ∧
      ∀ b ∈ (buildFromLines 1 false ["a"] 2
          [BLine.data ["5"] 2, BLine.data ["7"] 2] 6 0).blocks,
        b.startRow < b.endRow ∧ b.startOffset ≤ b.endOffset ∧
        ∀ s ∈ b.columns,
          strLe s.min s.max = true ∧ s.emptyCount ≤ b.endRow - b.startRow) :=
  ⟨by decide,
    C5_build_invariants 1 false ["a"] 2
      [BLine.data ["5"] 2, BLine.data ["7"] 2] 6 0 (by decide)⟩

/-- **C6** (counterexample).  The reader accepts a stream whose version
field is 99: `ReadIndex` stores the version and never compares it
against the known versions, so no `UnsupportedVersion` failure
exists. -/
theorem C6_unknown_version_accepted :
    (readIndex (writeIndex v99Index)).isSome = true ∧
    (readIndex (writeIndex v99Index)).map (fun i => i.header.version) = some 99 := by
  decide

/-- **C6** (amended).  The reader fails whenever the first four bytes
are not `"SIDX"` (including truncated streams); the version field is
never a cause of failure. -/
theorem C6_bad_magic_fails (bs : List Nat) (h : bs.take 4 ≠ sidxMagic) :
    readIndex bs = none := by
  unfold readIndex pbind readExact pfail
  by_cases h4 : 4 ≤ bs.length
  · simp [h4, h]
  · simp [h4]

/-- Witness for `C6_bad_magic_fails` at a concrete input. -/
theorem C6_bad_magic_fails_witness :
    [0, 0, 0, 0].take 4 ≠ sidxMagic ∧ readIndex [0, 0, 0, 0] = none :=
  ⟨by decide, C6_bad_magic_fails [0, 0, 0, 0] (by decide)⟩

/-- **C7.** The parallel scanner is selected iff no index is loaded,
the source is not stdin, `SIDX_NO_PARALLEL` is not `1`, the file has at
least 10 MiB and the limit is absent (`-1`) or at least 10 000; a stdin
source always takes the stdin stream.  The hypothesis is the parser's
guarantee that a limit is `-1` or non-negative. -/
theorem C7_parallel_selection (indexLoaded isStdin noParallel : Bool)
    (fileSize limit : Int) (hlim : limit = -1 ∨ 0 ≤ limit) :
    (decideStrategy indexLoaded isStdin noParallel fileSize limit = .parallel ↔
      (indexLoaded = false ∧ isStdin = false ∧ noParallel = false ∧
        10 * 1024 * 1024 ≤ fileSize ∧ (limit = -1 ∨ 10000 ≤ limit))) ∧
    decideStrategy indexLoaded true noParallel fileSize limit = .stdinStream := by
  constructor
  · cases isStdin with
    | true => simp [decideStrategy]
    | false =>
      by_cases hp : (indexLoaded = false ∧ noParallel = false ∧
          10 * 1024 * 1024 ≤ fileSize ∧ ¬(0 ≤ limit ∧ limit < 10000))
      · rw [decideStrategy, if_neg (by simp), if_pos hp]
        obtain ⟨h1, h2, h3, h4⟩ := hp
        simp only [true_iff]
        refine ⟨h1, trivial, h2, h3, ?_⟩
        rcases hlim with h | h
        · exact Or.inl h
        · right
          omega
      · have hns : ¬(indexLoaded = false ∧ (false : Bool) = false ∧
            noParallel = false ∧ 10 * 1024 * 1024 ≤ fileSize ∧
            (limit = -1 ∨ 10000 ≤ limit)) := by
          rintro ⟨a, -, b, c, d⟩
          refine hp ⟨a, b, c, ?_⟩
          rcases d with d | d <;> omega
        rw [decideStrategy, if_neg (by simp), if_neg hp]
        split
        · exact iff_of_false (by simp) hns
        · exact iff_of_false (by simp) hns
  · simp [decideStrategy]

/-- Witness for `C7_parallel_selection` at a concrete input. -/
theorem C7_parallel_selection_witness :
    decideStrategy false false false (10 * 1024 * 1024) (-1) = .parallel :=
  (C7_parallel_selection false false false (10 * 1024 * 1024) (-1)
      (Or.inl rfl)).1.mpr
    ⟨rfl, rfl, rfl, le_refl _, Or.inl rfl⟩

/-- **C8.** When the sidecar fails validation against the source
(size, mtime or column-dictionary mismatch — any case in which
`ValidateIndex` errors), the engine keeps `index = nil` and the query
runs exactly as with no sidecar at all; no load/validation failure
becomes a query error (the acquisition step returns `none`, never an
error). -/
theorem C8_invalid_index_ignored (idx : Index) (fs mt : Int)
    (hdr hs : List String) (rows : List (List String))
    (wh : Option Expression) (sel : List Nat) (limit : Int)
    (h : validateIndex idx fs mt hdr = false) :
    acquireIndex (some idx) fs mt hdr = none ∧
    executeFile (acquireIndex (some idx) fs mt hdr) hs rows wh sel limit =
      executeFile none hs rows wh sel limit := by
  have hnone : acquireIndex (some idx) fs mt hdr = none := by
    simp [acquireIndex, h]
  exact ⟨hnone, by rw [hnone]⟩

/-- Witness for `C8_invalid_index_ignored`: the source has grown to 11
bytes, the sidecar is ignored and the query output is the no-index
output. -/
theorem C8_invalid_index_ignored_witness :
    validateIndex staleIndex 11 0 [] = false ∧
    executeFile (acquireIndex (some staleIndex) 11 0 []) ["a"] [["1"]] none [0] (-1) =
      executeFile none ["a"] [["1"]] none [0] (-1) :=
  ⟨by decide,
    (C8_invalid_index_ignored staleIndex 11 0 [] ["a"] [["1"]] none [0] (-1)
      (by decide)).2⟩

/-- **C9** (counterexample).  The write-then-read round trip is not the
identity on every in-memory `Index`: the writer emits the literal
`"SIDX"` regardless of the in-memory magic field and the reader stores
the bytes it read, so an index whose magic is the Go zero value (as
`BuildFromFile` leaves it) comes back with a different magic field. -/
theorem C9_magic_not_roundtripped :
    readIndex (writeIndex zeroMagicIndex) ≠ some zeroMagicIndex ∧
    (readIndex (writeIndex zeroMagicIndex)).map (fun i => i.header.magic) =
      some sidxMagic := by
  decide

/-- **C9** (amended).  For every well-formed in-memory `Index` (version
at least 3 with all counts and lengths in their fixed-width ranges,
`num_blocks` equal to the number of blocks, and one stats record per
dictionary column in every block), writing with `WriteIndex` and
reading the bytes back with `ReadIndex` restores the index exactly,
except that the magic field reads back as `"SIDX"` whatever its
in-memory value was. -/
theorem C9_write_read_roundtrip (idx : Index) (h : wellFormedIndex idx) :
    readIndex (writeIndex idx) =
      some { idx with header := { idx.header with magic := sidxMagic } } := by
  obtain ⟨hv3, hv, hbs, hnb, hnb32, hfs1, hfs2, hmt1, hmt2, hnc, hcols, hblocks⟩ := h
  rw [readIndex, writeIndex]
  simp only [List.append_assoc]
  rw [pbind_eq _ _ _ sidxMagic _ (readExact_append 4 _ _ rfl), if_pos rfl,
    pbind_eq _ _ _ idx.header.version _ (readU32_append _ _ hv),
    pbind_eq _ _ _ idx.header.blockSize _ (readU32_append _ _ hbs),
    pbind_eq _ _ _ idx.header.numBlocks _ (readU32_append _ _ (by omega)),
    pbind_eq _ _ _ idx.header.fileSize _ (readI64_append _ _ hfs1 hfs2),
    pbind_eq _ _ _ idx.header.fileMtime _ (readI64_append _ _ hmt1 hmt2),
    pbind_eq _ _ _ idx.header.columns.length _ (readU32_append _ _ hnc),
    pbind_eq _ _ _ idx.header.columns _
      (readN_append readColumnInfo encodeColumnInfo idx.header.columns _
        (fun c hc r => readColumnInfo_append c r (hcols c hc))),
    hnb, ← List.append_nil (idx.blocks.flatMap encodeBlock),
    pbind_eq _ _ _ idx.blocks _
      (readN_append (readBlock idx.header.version idx.header.columns.length)
        encodeBlock idx.blocks []
        (fun b hb r =>
          readBlock_append idx.header.version idx.header.columns.length b r hv3
            (hblocks b hb).1.1 (hblocks b hb).1.2.1 (hblocks b hb).1.2.2.1
            (hblocks b hb).1.2.2.2 (hblocks b hb).2.1
            (hblocks b hb).2.2)),
    ppure]
  rfl

/-- Witness for `C9_write_read_roundtrip` at a concrete input. -/
theorem C9_write_read_roundtrip_witness :
    wellFormedIndex
      { header := { magic := sidxMagic, version := 3, blockSize := 2,
                    numBlocks := 1, fileSize := 7, fileMtime := 5,
                    columns := [⟨"a", .numeric⟩] }
        blocks := [⟨0, 2, 2, 7, [⟨"10", "9", 0⟩]⟩] } ∧
    readIndex (writeIndex
      { header := { magic := sidxMagic, version := 3, blockSize := 2,
                    numBlocks := 1, fileSize := 7, fileMtime := 5,
                    columns := [⟨"a", .numeric⟩] }
        blocks := [⟨0, 2, 2, 7, [⟨"10", "9", 0⟩]⟩] }) =
      some { header := { magic := sidxMagic, version := 3, blockSize := 2,
                         numBlocks := 1, fileSize := 7, fileMtime := 5,
                         columns := [⟨"a", .numeric⟩] }
             blocks := [⟨0, 2, 2, 7, [⟨"10", "9", 0⟩]⟩] } :=
  ⟨by unfold wellFormedIndex; decide,
    C9_write_read_roundtrip
      { header := { magic := sidxMagic, version := 3, blockSize := 2,
                    numBlocks := 1, fileSize := 7, fileMtime := 5,
                    columns := [⟨"a", .numeric⟩] }
        blocks := [⟨0, 2, 2, 7, [⟨"10", "9", 0⟩]⟩] }
      (by unfold wellFormedIndex; decide)⟩

/-- **C10.** Rows shorter than the header are handled totally: the
projector emits exactly one field per selected column and the empty
string for every selected ordinal at or beyond the row's length, and a
comparison whose (normalized) column name is not bound by the row —
i.e. does not occur among the first `record.length` header names —
evaluates to `false` in the sequential scanner. -/
theorem C10_short_rows_safe (record : List String) (sel : List Nat)
    (hs : List String) (c : Comparison)
    (hmiss : lowerStr (trimStr c.column) ∉ hs.take record.length) :
    (project record sel).length = sel.length ∧
    (∀ k, k < sel.length → record.length ≤ sel.getD k 0 →
      (project record sel).getD k "?" = "") ∧
    evaluateNormalized (.comparison c) (rowMapSeq hs record) = false := by
  refine ⟨by simp [project], ?_, ?_⟩
  · intro k hk hbeyond
    have hsel : sel.getD k 0 = sel[k] := by
      simp [List.getD_eq_getElem?_getD, List.getElem?_eq_getElem hk]
    have hproj : k < (project record sel).length := by
      simpa [project] using hk
    rw [List.getD_eq_getElem?_getD, List.getElem?_eq_getElem hproj]
    simp only [project, List.getElem_map, Option.getD_some]
    rw [if_neg (by omega)]
  · have hnone : (rowMapSeq hs record).lookup (lowerStr (trimStr c.column)) = none := by
      apply lookup_eq_none_of_not_mem
      intro p hp heq
      apply hmiss
      rw [← heq]
      exact zip_fst_mem_take hs record p (by simpa [rowMapSeq] using hp)
    simp [evaluateNormalized, hnone]

/-- Witness for `C10_short_rows_safe` at a concrete input. -/
theorem C10_short_rows_safe_witness :
    lowerStr (trimStr "b") ∉ ["a", "b"].take 1 ∧
    evaluateNormalized (.comparison (mkComparison "b" "=" "y"))
      (rowMapSeq ["a", "b"] ["x"]) = false :=
  ⟨by decide,
    (C10_short_rows_safe ["x"] [1] ["a", "b"] (mkComparison "b" "=" "y")
      (by decide)).2.2⟩

end Sieswi
